import Mathlib

set_option maxRecDepth 16000

/-!
Verification of the outserv bulk-loader core against its source.

The Lean definitions below are a shallow embedding of:
* `src/badger/table/builder.go` (SSTable builder),
* the map-entry codec and shard mapper in `src/unnamed/part_000` (package `boot`),
* the count-index rebuild decision in `src/posting/index.go`.

Bytes are modelled as `Nat` (each produced byte is `< 256` by construction);
Go byte slices are `List Nat`.  Machine-integer conversions (`uint16(x)`,
`uint32(x)`) are explicit `% 2 ^ w`.  A Go function that can panic through
`y.AssertTrue` / `x.AssertTrue` is modelled with `Option`, `none` standing
for the panic.
-/

/-! ## Big-endian integer codecs (`encoding/binary`) -/

/-- `binary.BigEndian.PutUint16`: the two big-endian bytes of `n`
(after the Go conversion `uint16(n)`, i.e. `n % 2^16`). -/
def putUint16BE (n : Nat) : List Nat := [n / 2 ^ 8 % 2 ^ 8, n % 2 ^ 8]

/-- `binary.BigEndian.PutUint32`: the four big-endian bytes of `n % 2^32`. -/
def putUint32BE (n : Nat) : List Nat := putUint16BE (n / 2 ^ 16) ++ putUint16BE n

/-- `binary.BigEndian.PutUint64`: the eight big-endian bytes of `n % 2^64`. -/
def putUint64BE (n : Nat) : List Nat := putUint32BE (n / 2 ^ 32) ++ putUint32BE n

/-- `binary.BigEndian.Uint16(buf[i:i+2])` (out-of-range bytes read as 0). -/
def readU16 (b : List Nat) (i : Nat) : Nat := b.getD i 0 * 2 ^ 8 + b.getD (i + 1) 0

/-- `binary.BigEndian.Uint32(buf[i:i+4])`. -/
def readU32 (b : List Nat) (i : Nat) : Nat := readU16 b i * 2 ^ 16 + readU16 b (i + 2)

/-- `binary.BigEndian.Uint64(buf[i:i+8])`. -/
def readU64 (b : List Nat) (i : Nat) : Nat := readU32 b i * 2 ^ 32 + readU32 b (i + 4)

theorem be_combine (B n : Nat) : n / B % B * B + n % B = n % (B * B) := by
  have h3 := Nat.div_add_mod (n % (B * B)) B
  rw [Nat.mod_mul_right_div_self n B B, Nat.mod_mod_of_dvd n ⟨B, rfl⟩,
    Nat.mul_comm B (n / B % B)] at h3
  exact h3

theorem putUint16BE_length (n : Nat) : (putUint16BE n).length = 2 := rfl

theorem putUint32BE_length (n : Nat) : (putUint32BE n).length = 4 := rfl

theorem putUint64BE_length (n : Nat) : (putUint64BE n).length = 8 := rfl

theorem readU16_putUint16BE (n : Nat) (rest : List Nat) :
    readU16 (putUint16BE n ++ rest) 0 = n % 2 ^ 16 := by
  have := be_combine (2 ^ 8) n
  simpa [readU16, putUint16BE, List.getD] using this

theorem readU32_putUint32BE (n : Nat) (rest : List Nat) :
    readU32 (putUint32BE n ++ rest) 0 = n % 2 ^ 32 := by
  have h1 := be_combine (2 ^ 8) (n / 2 ^ 16)
  have h2 := be_combine (2 ^ 8) n
  have h3 := be_combine (2 ^ 16) n
  simp only [readU32, readU16, putUint32BE, putUint16BE, List.cons_append, List.nil_append,
    List.getD_cons_zero, List.getD_cons_succ] at *
  norm_num at *
  omega

theorem readU64_putUint64BE (n : Nat) (rest : List Nat) :
    readU64 (putUint64BE n ++ rest) 0 = n % 2 ^ 64 := by
  have h1 := be_combine (2 ^ 8) (n / 2 ^ 32 / 2 ^ 16)
  have h2 := be_combine (2 ^ 8) (n / 2 ^ 32)
  have h3 := be_combine (2 ^ 16) (n / 2 ^ 32)
  have h4 := be_combine (2 ^ 8) (n / 2 ^ 16)
  have h5 := be_combine (2 ^ 8) n
  have h6 := be_combine (2 ^ 16) n
  have h7 := be_combine (2 ^ 32) n
  simp only [readU64, readU32, readU16, putUint64BE, putUint32BE, putUint16BE,
    List.cons_append, List.nil_append, List.getD_cons_zero, List.getD_cons_succ] at *
  norm_num at *
  omega

/-! ## SSTable builder (`src/badger/table/builder.go`) -/

/-- `var tableSize int64 = 50 << 20`. -/
def tableSize : Nat := 52428800

/-- `var restartInterval int = 100`. -/
def restartInterval : Nat := 100

/-- `type header struct { plen, klen, vlen, prev int }`. -/
structure Header where
  plen : Nat
  klen : Nat
  vlen : Nat
  prev : Nat
deriving DecidableEq

/-- `header.Encode`: four 16-bit big-endian fields, 8 bytes. -/
def Header.Encode (h : Header) : List Nat :=
  putUint16BE h.plen ++ putUint16BE h.klen ++ putUint16BE h.vlen ++ putUint16BE h.prev

/-- `header.Decode`: reads the four 16-bit big-endian fields back. -/
def Header.Decode (buf : List Nat) : Header :=
  ⟨readU16 buf 0, readU16 buf 2, readU16 buf 4, readU16 buf 6⟩

/-- `header.Size() == 8`. -/
def Header.Size (_ : Header) : Nat := 8

/-- `type TableBuilder struct`.  The Go builder owns a fixed `buf []byte` of
`tableSize` bytes plus a write position `pos`; we keep `data`, the list of the
`pos` bytes written so far (bytes of `buf` beyond `pos` are unobservable until
`Finish` pads, and the padding bytes of a fresh buffer are zero). -/
structure TableBuilder where
  counter : Nat
  data : List Nat
  pos : Nat
  baseKey : List Nat
  restarts : List Nat
  prevOffset : Nat
deriving DecidableEq

/-- A zero-valued `TableBuilder` (fresh Go struct). -/
def newTableBuilder : TableBuilder := ⟨0, [], 0, [], [], 0⟩

/-- `TableBuilder.Reset`: clears counter, position, base key and restarts.
(`prevOffset` is not reset by the Go code.) -/
def TableBuilder.Reset (b : TableBuilder) : TableBuilder :=
  ⟨0, [], 0, [], [], b.prevOffset⟩

/-- `TableBuilder.write`: copies `d` at `pos` and advances `pos`. -/
def TableBuilder.write (b : TableBuilder) (d : List Nat) : TableBuilder :=
  { b with data := b.data ++ d, pos := b.pos + d.length }

/-- Length of the common byte-prefix of two slices (the loop in `keyDiff`). -/
def commonLen : List Nat → List Nat → Nat
  | x :: xs, y :: ys => if x = y then commonLen xs ys + 1 else 0
  | _, _ => 0

/-- `TableBuilder.keyDiff`: the suffix of `newKey` after its common prefix
with `baseKey`. -/
def TableBuilder.keyDiff (b : TableBuilder) (newKey : List Nat) : List Nat :=
  newKey.drop (commonLen newKey b.baseKey)

/-- `TableBuilder.length`: `pos + 6 /* empty header */ + 4*len(restarts) + 8`. -/
def TableBuilder.length (b : TableBuilder) : Nat :=
  b.pos + 6 + 4 * b.restarts.length + 8

/-- `TableBuilder.Add(key, value)`.  Returns the builder the Go receiver holds
after the call together with `some` error when the record would exceed
`tableSize` (in which case the receiver is returned unchanged). -/
def TableBuilder.Add (b : TableBuilder) (key value : List Nat) :
    TableBuilder × Option Unit :=
  if key.length + value.length + b.length > tableSize then
    (b, some ())
  else
    let b := if b.counter ≥ restartInterval then
        { b with restarts := b.restarts ++ [b.pos % 2 ^ 32], counter := 0, baseKey := [] }
      else b
    let pr := if b.baseKey.length = 0 then ({ b with baseKey := key }, key)
      else (b, b.keyDiff key)
    let b := pr.1
    let diffKey := pr.2
    let h : Header := ⟨key.length - diffKey.length, diffKey.length, value.length, b.prevOffset⟩
    let b := { b with prevOffset := b.pos }
    let b := ((b.write h.Encode).write diffKey).write value
    ({ b with counter := b.counter + 1 }, none)

/-- `TableBuilder.blockIndex`: appends the end offset to `restarts`, then
renders all restart offsets as big-endian `u32`s followed by the count. -/
def TableBuilder.blockIndex (b : TableBuilder) : TableBuilder × List Nat :=
  let restarts := b.restarts ++ [b.pos % 2 ^ 32]
  (({ b with restarts := restarts } : TableBuilder),
    (restarts.map putUint32BE).flatten ++ putUint32BE restarts.length)

/-- `TableBuilder.Finish`: adds the empty terminator record (its error is
ignored by the Go code), writes the restart index at `tableSize - len(index)`
and returns the whole `tableSize` buffer.  `none` models the
`y.AssertTrue(b.pos <= newpos)` panic. -/
def TableBuilder.Finish (b : TableBuilder) : Option (List Nat) :=
  let b := (b.Add [] []).1
  let pr := b.blockIndex
  let b := pr.1
  let index := pr.2
  if (b.pos : Int) ≤ (tableSize : Int) - index.length then
    some (b.data ++ List.replicate (tableSize - index.length - b.pos) 0 ++ index)
  else
    none

/-! ## Builder invariants and claims C1, C2, C10, C6 -/

theorem TableBuilder.Add_wf (b : TableBuilder) (key value : List Nat)
    (h : b.data.length = b.pos) :
    ((b.Add key value).1).data.length = ((b.Add key value).1).pos := by
  by_cases h1 : key.length + value.length + b.length > tableSize
  · simp [TableBuilder.Add, h1, h]
  · by_cases h2 : b.counter ≥ restartInterval
    · simp +arith [TableBuilder.Add, h1, h2, TableBuilder.write, TableBuilder.keyDiff,
        h, Header.Encode, putUint16BE]
    · by_cases h3 : b.baseKey.length = 0 <;>
        simp +arith [TableBuilder.Add, h1, h2, h3, TableBuilder.write,
          TableBuilder.keyDiff, h, Header.Encode, putUint16BE]

theorem TableBuilder.finish_length (b : TableBuilder) (h : b.data.length = b.pos)
    (out : List Nat) (hfin : b.Finish = some out) : out.length = tableSize := by
  have h1 := TableBuilder.Add_wf b [] [] h
  unfold TableBuilder.Finish at hfin
  simp only [TableBuilder.blockIndex] at hfin
  split at hfin
  case isTrue hle =>
    rw [Option.some_inj] at hfin
    subst hfin
    simp only [List.length_append, List.length_replicate, h1] at hle ⊢
    omega
  case isFalse => exact absurd hfin (by simp)

/-- C1: `TableBuilder.Add` returns the table-full error exactly when
`len(key) + len(value) + (pos + 6 + 4*len(restarts) + 8)` exceeds
`tableSize`, and in the error case the receiver is returned with every
field unchanged. -/
theorem c1_add_tablefull (b : TableBuilder) (key value : List Nat) :
    ((b.Add key value).2 ≠ none ↔
      key.length + value.length + (b.pos + 6 + 4 * b.restarts.length + 8) > tableSize) ∧
    ((b.Add key value).2 ≠ none → (b.Add key value).1 = b) := by
  unfold TableBuilder.Add TableBuilder.length
  split
  case isTrue hc => simpa using hc
  case isFalse hc => simpa using hc

/-- A builder whose write position already equals `tableSize`. -/
def fullBuilder : TableBuilder := ⟨0, [], tableSize, [], [], 0⟩

theorem c1_add_tablefull_witness :
    (fullBuilder.Add [] []).2 ≠ none ∧ (fullBuilder.Add [] []).1 = fullBuilder := by
  have h := c1_add_tablefull fullBuilder [] []
  have hc : (([] : List Nat)).length + (([] : List Nat)).length +
      (fullBuilder.pos + 6 + 4 * fullBuilder.restarts.length + 8) > tableSize := by decide
  exact ⟨h.1.mpr hc, h.2 (h.1.mpr hc)⟩

/-- C2: whenever `Finish` returns a buffer (its internal assertion holds),
that buffer is exactly `tableSize` bytes long; `data.length = pos` is the
well-formedness every builder reachable by `Reset`/`Add` satisfies. -/
theorem c2_finish_padded (b : TableBuilder) (hwf : b.data.length = b.pos)
    (out : List Nat) (hfin : b.Finish = some out) : out.length = tableSize :=
  TableBuilder.finish_length b hwf out hfin

theorem c2_finish_padded_witness :
    newTableBuilder.data.length = newTableBuilder.pos ∧
    ((newTableBuilder.Finish).getD []).length = tableSize := by
  have hs : newTableBuilder.Finish = some ((newTableBuilder.Finish).getD []) := rfl
  exact ⟨rfl, c2_finish_padded newTableBuilder rfl _ hs⟩

/-- C10: the record header stores each of its four fields as a 16-bit
big-endian integer, so any field value is silently truncated to its value
modulo `2^16`; `Add`'s only check is against `tableSize`, never against the
fields fitting in 16 bits. -/
theorem c10_header_fields_mod_2_16 :
    (∀ h : Header, Header.Decode (Header.Encode h) =
      ⟨h.plen % 2 ^ 16, h.klen % 2 ^ 16, h.vlen % 2 ^ 16, h.prev % 2 ^ 16⟩) ∧
    (∀ (b : TableBuilder) (key value : List Nat),
      ((b.Add key value).2 = none ↔
        key.length + value.length + b.length ≤ tableSize)) := by
  constructor
  · intro h
    have e1 := be_combine (2 ^ 8) h.plen
    have e2 := be_combine (2 ^ 8) h.klen
    have e3 := be_combine (2 ^ 8) h.vlen
    have e4 := be_combine (2 ^ 8) h.prev
    simp only [Header.Decode, Header.Encode, readU16, putUint16BE, List.cons_append,
      List.nil_append, List.getD_cons_zero, List.getD_cons_succ, Header.mk.injEq]
    norm_num at e1 e2 e3 e4 ⊢
    omega
  · intro b key value
    unfold TableBuilder.Add
    split
    case isTrue hc => simpa using hc
    case isFalse hc => simpa using hc

/-- Adds `n` one-byte records (key `[1]`, empty value) in sequence. -/
def addRecords : Nat → TableBuilder → TableBuilder
  | 0, b => b
  | n + 1, b => addRecords n (b.Add [1] []).1

/-- All builder fields except the written bytes agree.  `Add` never reads
`data`, so states agreeing on these fields evolve in lockstep. -/
abbrev sameScalars (b c : TableBuilder) : Prop :=
  b.counter = c.counter ∧ b.pos = c.pos ∧ b.baseKey = c.baseKey ∧
    b.restarts = c.restarts ∧ b.prevOffset = c.prevOffset

/-- Scalar checkpoint after 100 `Add [1] []` calls on a reset builder. -/
def s100 : TableBuilder := ⟨100, [], 801, [1], [], 793⟩

/-- Scalar checkpoint after 200 `Add [1] []` calls on a reset builder. -/
def s200 : TableBuilder := ⟨100, [], 1602, [1], [801], 1594⟩

/-- Scalar checkpoint after 250 `Add [1] []` calls on a reset builder. -/
def s250 : TableBuilder := ⟨50, [], 2003, [1], [801, 1602], 1995⟩

theorem addRecords_split (n m : Nat) (b : TableBuilder) :
    addRecords (n + m) b = addRecords n (addRecords m b) := by
  induction m generalizing b with
  | zero => rfl
  | succ k ih =>
    calc addRecords (n + (k + 1)) b = addRecords (n + k) ((b.Add [1] []).1) := by
          rw [Nat.add_succ]; rfl
      _ = addRecords n (addRecords k ((b.Add [1] []).1)) := ih _
      _ = addRecords n (addRecords (k + 1) b) := rfl

theorem TableBuilder.Add_congr (b c : TableBuilder) (key value : List Nat)
    (h : sameScalars b c) :
    sameScalars (b.Add key value).1 (c.Add key value).1 ∧
      (b.Add key value).2 = (c.Add key value).2 := by
  obtain ⟨bc, bd, bp, bk, br, bo⟩ := b
  obtain ⟨cc, cd, cp, ck, cr, co⟩ := c
  obtain ⟨h1, h2, h3, h4, h5⟩ := h
  simp only at h1 h2 h3 h4 h5
  subst h1; subst h2; subst h3; subst h4; subst h5
  by_cases g1 : key.length + value.length + (bp + 6 + 4 * br.length + 8) > tableSize
  · simp [TableBuilder.Add, TableBuilder.length, g1, sameScalars]
  · by_cases g2 : bc ≥ restartInterval
    · simp +arith [TableBuilder.Add, TableBuilder.length, g1, g2, sameScalars,
        TableBuilder.write, TableBuilder.keyDiff, Header.Encode, putUint16BE]
    · by_cases g3 : bk.length = 0 <;>
        simp +arith [TableBuilder.Add, TableBuilder.length, g1, g2, g3, sameScalars,
          TableBuilder.write, TableBuilder.keyDiff, Header.Encode, putUint16BE]

theorem addRecords_congr (n : Nat) (b c : TableBuilder) (h : sameScalars b c) :
    sameScalars (addRecords n b) (addRecords n c) := by
  induction n generalizing b c with
  | zero => exact h
  | succ k ih => exact ih _ _ (TableBuilder.Add_congr b c [1] [] h).1

theorem sameScalars_trans {a b c : TableBuilder}
    (h1 : sameScalars a b) (h2 : sameScalars b c) : sameScalars a c :=
  ⟨h1.1.trans h2.1, h1.2.1.trans h2.2.1, h1.2.2.1.trans h2.2.2.1,
    h1.2.2.2.1.trans h2.2.2.2.1, h1.2.2.2.2.trans h2.2.2.2.2⟩

theorem TableBuilder.blockIndex_congr (b c : TableBuilder) (h : sameScalars b c) :
    (b.blockIndex).2 = (c.blockIndex).2 := by
  obtain ⟨_, hp, _, hr, _⟩ := h
  simp [TableBuilder.blockIndex, hp, hr]

theorem addRecords_wf (n : Nat) (b : TableBuilder) (h : b.data.length = b.pos) :
    (addRecords n b).data.length = (addRecords n b).pos := by
  induction n generalizing b with
  | zero => exact h
  | succ k ih => exact ih _ (TableBuilder.Add_wf b [1] [] h)

theorem flatten_putUint32BE_length (l : List Nat) :
    ((l.map putUint32BE).flatten).length = 4 * l.length := by
  induction l with
  | nil => simp
  | cons x xs ih => simp +arith [putUint32BE, putUint16BE, ih]

theorem TableBuilder.finish_isSome (b : TableBuilder)
    (hcond : ((b.Add [] []).1).pos + 4 * ((b.Add [] []).1).restarts.length + 8 ≤ tableSize) :
    ∃ out, b.Finish = some out := by
  rcases hsplit : b.Finish with _ | out
  · exfalso
    unfold TableBuilder.Finish at hsplit
    simp only [TableBuilder.blockIndex] at hsplit
    split at hsplit
    case isTrue => exact Option.noConfusion hsplit
    case isFalse hlt =>
      rw [List.length_append, flatten_putUint32BE_length, List.length_append] at hlt
      simp only [putUint32BE_length, List.length_singleton] at hlt
      omega
  · exact ⟨out, rfl⟩

theorem addRecords_250_scalars :
    sameScalars (addRecords 250 (TableBuilder.Reset newTableBuilder)) s250 := by
  have h1 : sameScalars (addRecords 100 (TableBuilder.Reset newTableBuilder)) s100 := by decide
  have h2 : sameScalars (addRecords 100 s100) s200 := by decide
  have h3 : sameScalars (addRecords 50 s200) s250 := by decide
  have e1 : addRecords 250 (TableBuilder.Reset newTableBuilder) =
      addRecords 50 (addRecords 100 (addRecords 100 (TableBuilder.Reset newTableBuilder))) := by
    rw [← addRecords_split 50 100, ← addRecords_split 150 100]
  rw [e1]
  exact sameScalars_trans
    (addRecords_congr 50 _ _ (sameScalars_trans (addRecords_congr 100 _ _ h1) h2)) h3

/-- C6 counterexample: after 250 records and the terminator, the restart
index's trailing 4-byte big-endian count is 3 — not 4 as the claim states. -/
theorem c6_counterexample :
    ((((addRecords 250 (TableBuilder.Reset newTableBuilder)).Add [] []).1.blockIndex).2.drop 12
        ≠ [0, 0, 0, 4]) ∧
    ((((addRecords 250 (TableBuilder.Reset newTableBuilder)).Add [] []).1.blockIndex).2.drop 12
        = [0, 0, 0, 3]) := by
  have hT := (TableBuilder.Add_congr _ s250 [] [] addRecords_250_scalars).1
  have hbi := TableBuilder.blockIndex_congr _ _ hT
  rw [hbi]
  constructor <;> decide

/-- C6 amended: 250 records with `restartInterval = 100` leave two restart
offsets (801 and 1602, at records 101 and 201); `Finish`'s terminator and
`blockIndex` append the end-of-stream offset 2011, so the restart index is
three offsets plus a trailing count of 3, and the finished buffer is exactly
`tableSize` bytes. -/
theorem c6_amended_restart_index :
    ((addRecords 250 (TableBuilder.Reset newTableBuilder)).Add [] []).1.restarts = [801, 1602] ∧
    (((addRecords 250 (TableBuilder.Reset newTableBuilder)).Add [] []).1.blockIndex).2 =
      putUint32BE 801 ++ putUint32BE 1602 ++ putUint32BE 2011 ++ putUint32BE 3 ∧
    ∃ out, (addRecords 250 (TableBuilder.Reset newTableBuilder)).Finish = some out ∧
      out.length = tableSize := by
  have hT := (TableBuilder.Add_congr _ s250 [] [] addRecords_250_scalars).1
  have hbi := TableBuilder.blockIndex_congr _ _ hT
  refine ⟨?_, ?_, ?_⟩
  · rw [hT.2.2.2.1]
    decide
  · rw [hbi]
    decide
  · have hwf : (addRecords 250 (TableBuilder.Reset newTableBuilder)).data.length =
        (addRecords 250 (TableBuilder.Reset newTableBuilder)).pos :=
      addRecords_wf 250 _ rfl
    have hcond :
        (((addRecords 250 (TableBuilder.Reset newTableBuilder)).Add [] []).1).pos +
          4 * (((addRecords 250 (TableBuilder.Reset newTableBuilder)).Add [] []).1).restarts.length +
          8 ≤ tableSize := by
      rw [hT.2.1, hT.2.2.2.1]
      decide
    obtain ⟨out, hout⟩ := TableBuilder.finish_isSome _ hcond
    exact ⟨out, hout, TableBuilder.finish_length _ hwf out hout⟩

/-! ## Map-entry codec (package `boot`, `src/unnamed/part_000`) -/

/-- `pb.Posting_REF` / `pb.Posting_VALUE`. -/
inductive PostingType where
  | REF
  | VALUE
deriving DecidableEq

/-- Modelled from the spec: `pb.Posting` is generated protobuf code that is
not under `src/`.  We keep the fields the covered code reads (`Uid`,
`Value`, `PostingType`) and treat its protobuf encoding as the opaque byte
string `wire` ("posting_bytes" in the spec): `Size()` returns `wire.length`
and `MarshalToSizedBuffer` writes exactly those bytes. -/
structure Posting where
  uid : Nat
  value : List Nat
  postingType : PostingType
  wire : List Nat
deriving DecidableEq

/-- `p.Size()` on a possibly-nil `*pb.Posting` (the generated `Size`
returns 0 for nil). -/
def Posting.Size : Option Posting → Nat
  | none => 0
  | some p => p.wire.length

/-- `mapEntrySize(key, p) = 8 + 4 + 4 + len(key) + p.Size()`. -/
def mapEntrySize (key : List Nat) (p : Option Posting) : Nat :=
  8 + 4 + 4 + key.length + Posting.Size p

/-- `marshalMapEntry(dst, uid, key, p)`: the bytes written into `dst`.
Note the Go code replaces the `uid` argument by `p.Uid` when `p != nil`. -/
def marshalMapEntry (uid : Nat) (key : List Nat) (p : Option Posting) : List Nat :=
  let uid := match p with
    | some q => q.uid
    | none => uid
  putUint64BE uid ++ putUint32BE key.length ++ putUint32BE (Posting.Size p) ++ key ++
    (match p with
      | some q => q.wire
      | none => [])

/-- `type MapEntry []byte`. -/
abbrev MapEntry := List Nat

/-- `MapEntry.Size()`. -/
def MapEntry.Size (me : MapEntry) : Nat := List.length me

/-- `MapEntry.Uid()`: big-endian `u64` at offset 0. -/
def MapEntry.Uid (me : MapEntry) : Nat := readU64 me 0

/-- `MapEntry.Key()`: `me[16 : 16+klen]` where `klen` is the `u32` at
offset 8. -/
def MapEntry.Key (me : MapEntry) : List Nat := (me.drop 16).take (readU32 me 8)

/-- `MapEntry.Plist()`: `me[16+klen : 16+klen+plen]` where `plen` is the
`u32` at offset 12. -/
def MapEntry.Plist (me : MapEntry) : List Nat :=
  (me.drop (16 + readU32 me 8)).take (readU32 me 12)

theorem readU16_shift (A B : List Nat) (i : Nat) (h : A.length ≤ i) :
    readU16 (A ++ B) i = readU16 B (i - A.length) := by
  unfold readU16
  rw [List.getD_append_right A B 0 i h, List.getD_append_right A B 0 (i + 1) (by omega)]
  have e : i + 1 - A.length = i - A.length + 1 := by omega
  rw [e]

theorem readU32_shift (A B : List Nat) (i : Nat) (h : A.length ≤ i) :
    readU32 (A ++ B) i = readU32 B (i - A.length) := by
  unfold readU32
  rw [readU16_shift A B i h, readU16_shift A B (i + 2) (by omega)]
  have e : i + 2 - A.length = i - A.length + 2 := by omega
  rw [e]

theorem readU64_shift (A B : List Nat) (i : Nat) (h : A.length ≤ i) :
    readU64 (A ++ B) i = readU64 B (i - A.length) := by
  unfold readU64
  rw [readU32_shift A B i h, readU32_shift A B (i + 4) (by omega)]
  have e : i + 4 - A.length = i - A.length + 4 := by omega
  rw [e]

theorem mapEntry_fields (u : Nat) (key w : List Nat)
    (hu : u < 2 ^ 64) (hk : key.length < 2 ^ 32) (hw : w.length < 2 ^ 32) :
    MapEntry.Uid (putUint64BE u ++ putUint32BE key.length ++ putUint32BE w.length ++ key ++ w)
        = u ∧
    MapEntry.Key (putUint64BE u ++ putUint32BE key.length ++ putUint32BE w.length ++ key ++ w)
        = key ∧
    MapEntry.Plist (putUint64BE u ++ putUint32BE key.length ++ putUint32BE w.length ++ key ++ w)
        = w := by
  have hE : putUint64BE u ++ putUint32BE key.length ++ putUint32BE w.length ++ key ++ w
      = putUint64BE u ++ (putUint32BE key.length ++ (putUint32BE w.length ++ (key ++ w))) := by
    simp [List.append_assoc]
  have hP : putUint64BE u ++ putUint32BE key.length ++ putUint32BE w.length ++ key ++ w
      = (putUint64BE u ++ putUint32BE key.length ++ putUint32BE w.length) ++ (key ++ w) := by
    simp [List.append_assoc]
  have hlen : (putUint64BE u ++ putUint32BE key.length ++ putUint32BE w.length).length = 16 := by
    simp [putUint64BE, putUint32BE, putUint16BE]
  have hreadk : readU32
      (putUint64BE u ++ putUint32BE key.length ++ putUint32BE w.length ++ key ++ w) 8
      = key.length := by
    rw [hE, readU32_shift _ _ 8 (by rw [putUint64BE_length])]
    rw [putUint64BE_length]
    norm_num
    rw [readU32_putUint32BE]
    exact Nat.mod_eq_of_lt hk
  have hreads : readU32
      (putUint64BE u ++ putUint32BE key.length ++ putUint32BE w.length ++ key ++ w) 12
      = w.length := by
    rw [hE, readU32_shift _ _ 12 (by rw [putUint64BE_length]; omega)]
    rw [putUint64BE_length]
    norm_num
    rw [readU32_shift _ _ 4 (by rw [putUint32BE_length])]
    rw [putUint32BE_length]
    norm_num
    rw [readU32_putUint32BE]
    exact Nat.mod_eq_of_lt hw
  refine ⟨?_, ?_, ?_⟩
  · rw [MapEntry.Uid, hE, readU64_putUint64BE]
    exact Nat.mod_eq_of_lt hu
  · rw [MapEntry.Key, hreadk, hP, ← hlen, List.drop_left, List.take_left]
  · rw [MapEntry.Plist, hreadk, hreads, hP, ← hlen, List.drop_append key.length,
      List.drop_left, List.take_length]

/-- C3 counterexample: `marshalMapEntry` overrides the `uid` argument with
`p.Uid` whenever a posting is present, so the round trip does not return
the uid that was passed. -/
theorem c3_counterexample :
    MapEntry.Uid (marshalMapEntry 5 [] (some ⟨7, [], PostingType.REF, []⟩)) ≠ 5 := by
  decide

/-- C3 amended: reading a marshalled map-entry back yields `p.Uid` when a
posting is present (the `uid` argument otherwise), the key bytes, and the
posting bytes; `mapEntrySize` is exactly the number of bytes written
(`8 + 4 + 4 + len(key) + p.Size()`).  The bounds are the Go types: `uid`
is a `uint64` and the two stored lengths are `uint32`s. -/
theorem c3_amended_roundtrip (uid : Nat) (key : List Nat) (p : Option Posting)
    (hu : uid < 2 ^ 64) (hq : ∀ q, p = some q → q.uid < 2 ^ 64)
    (hk : key.length < 2 ^ 32) (hp : Posting.Size p < 2 ^ 32) :
    MapEntry.Uid (marshalMapEntry uid key p) =
      (match p with
        | some q => q.uid
        | none => uid) ∧
    MapEntry.Key (marshalMapEntry uid key p) = key ∧
    MapEntry.Plist (marshalMapEntry uid key p) =
      (match p with
        | some q => q.wire
        | none => []) ∧
    (marshalMapEntry uid key p).length = mapEntrySize key p := by
  cases p with
  | none =>
    have h := mapEntry_fields uid key [] hu hk (by norm_num)
    refine ⟨?_, ?_, ?_, ?_⟩
    · simpa [marshalMapEntry, Posting.Size] using h.1
    · simpa [marshalMapEntry, Posting.Size] using h.2.1
    · simpa [marshalMapEntry, Posting.Size] using h.2.2
    · simp +arith [marshalMapEntry, mapEntrySize, Posting.Size, putUint64BE,
        putUint32BE, putUint16BE]
  | some q =>
    have h := mapEntry_fields q.uid key q.wire (hq q rfl) hk (by simpa [Posting.Size] using hp)
    refine ⟨?_, ?_, ?_, ?_⟩
    · simpa [marshalMapEntry, Posting.Size] using h.1
    · simpa [marshalMapEntry, Posting.Size] using h.2.1
    · simpa [marshalMapEntry, Posting.Size] using h.2.2
    · simp +arith [marshalMapEntry, mapEntrySize, Posting.Size, putUint64BE,
        putUint32BE, putUint16BE]

theorem c3_amended_roundtrip_witness :
    MapEntry.Uid (marshalMapEntry 5 [9] (some ⟨7, [2], PostingType.VALUE, [3, 4]⟩)) = 7 ∧
    MapEntry.Key (marshalMapEntry 5 [9] (some ⟨7, [2], PostingType.VALUE, [3, 4]⟩)) = [9] ∧
    MapEntry.Plist (marshalMapEntry 5 [9] (some ⟨7, [2], PostingType.VALUE, [3, 4]⟩)) = [3, 4] ∧
    (marshalMapEntry 5 [9] (some ⟨7, [2], PostingType.VALUE, [3, 4]⟩)).length =
      mapEntrySize [9] (some ⟨7, [2], PostingType.VALUE, [3, 4]⟩) := by
  have h := c3_amended_roundtrip 5 [9] (some ⟨7, [2], PostingType.VALUE, [3, 4]⟩)
    (by norm_num) (by intro q hq; cases hq; norm_num) (by norm_num)
    (by simp [Posting.Size])
  simpa using h

/-! ## Shard-file comparator and spill (`less`, `writeMapEntriesToFile`) -/

/-- `bytes.Compare`: lexicographic byte comparison, a proper prefix being
smaller. -/
def bytesCompare : List Nat → List Nat → Ordering
  | [], [] => Ordering.eq
  | [], _ :: _ => Ordering.lt
  | _ :: _, [] => Ordering.gt
  | a :: as, b :: bs =>
    if a < b then Ordering.lt else if b < a then Ordering.gt else bytesCompare as bs

/-- `less(lhs, rhs)`: key bytes first, then uid. -/
def less (lhs rhs : MapEntry) : Bool :=
  match bytesCompare (MapEntry.Key lhs) (MapEntry.Key rhs) with
  | Ordering.lt => true
  | Ordering.gt => false
  | Ordering.eq => decide (MapEntry.Uid lhs < MapEntry.Uid rhs)

/-- The in-place sort `cbuf.SortSlice(less)` before the spill: a sort of the
records by `less` (mergesort, matching the stability the spec requires). -/
def sortMapEntries (l : List MapEntry) : List MapEntry :=
  l.mergeSort (fun a b => !(less b a))

/-- The partition-key loop of `writeMapEntriesToFile`: accumulate record
sizes (`4 + len(me)`); once `partition_buf_size` is reached, record the
entry's key unless it equals the last recorded key (the accumulator holds
the keys most-recent-first and is reversed at the end; the Go slice keeps
them in order, `head?` here is its last element). -/
def partitionKeysAux (pbs : Nat) : List MapEntry → List (List Nat) → Nat → List (List Nat)
  | [], acc, _ => acc.reverse
  | me :: rest, acc, bufSize =>
    let bufSize' := bufSize + 4 + me.length
    if bufSize' < pbs then partitionKeysAux pbs rest acc bufSize'
    else if acc.head? = some (MapEntry.Key me) then partitionKeysAux pbs rest acc bufSize'
    else partitionKeysAux pbs rest (MapEntry.Key me :: acc) 0

/-- `mapper.writeMapEntriesToFile` (observable content): sorts the buffered
entries, computes the header's partition keys over the sorted sequence, and
emits the sorted records.  Returns `(header.PartitionKeys, records)`; the
snappy framing and uvarint length prefixes around each record are elided. -/
def writeMapEntriesToFile (pbs : Nat) (entries : List MapEntry) :
    List (List Nat) × List MapEntry :=
  let sorted := sortMapEntries entries
  (partitionKeysAux pbs sorted [] 0, sorted)

theorem bytesCompare_eq_iff (a : List Nat) : ∀ b, bytesCompare a b = Ordering.eq ↔ a = b := by
  induction a with
  | nil => intro b; cases b <;> simp [bytesCompare]
  | cons x xs ih =>
    intro b
    cases b with
    | nil => simp [bytesCompare]
    | cons y ys =>
      rcases Nat.lt_trichotomy x y with h | h | h
      · simp [bytesCompare, h, Nat.ne_of_lt h]
      · subst h
        simp [bytesCompare, ih]
      · simp [bytesCompare, h, Nat.lt_asymm h, Ne.symm (Nat.ne_of_lt h)]

theorem bytesCompare_gt_iff (a : List Nat) :
    ∀ b, bytesCompare a b = Ordering.gt ↔ bytesCompare b a = Ordering.lt := by
  induction a with
  | nil => intro b; cases b <;> simp [bytesCompare]
  | cons x xs ih =>
    intro b
    cases b with
    | nil => simp [bytesCompare]
    | cons y ys =>
      rcases Nat.lt_trichotomy x y with h | h | h
      · simp [bytesCompare, h, Nat.lt_asymm h]
      · subst h
        simp [bytesCompare, ih]
      · simp [bytesCompare, h, Nat.lt_asymm h]

theorem bytesCompare_lt_trans {a b c : List Nat}
    (h1 : bytesCompare a b = Ordering.lt) (h2 : bytesCompare b c = Ordering.lt) :
    bytesCompare a c = Ordering.lt := by
  induction a generalizing b c with
  | nil =>
    cases b with
    | nil => exact absurd h1 (by simp [bytesCompare])
    | cons y ys =>
      cases c with
      | nil => exact absurd h2 (by simp [bytesCompare])
      | cons z zs => simp [bytesCompare]
  | cons x xs ih =>
    cases b with
    | nil => exact absurd h1 (by simp [bytesCompare])
    | cons y ys =>
      cases c with
      | nil => exact absurd h2 (by simp [bytesCompare])
      | cons z zs =>
        simp only [bytesCompare] at h1 h2 ⊢
        rcases Nat.lt_trichotomy x y with hxy | hxy | hxy <;>
          rcases Nat.lt_trichotomy y z with hyz | hyz | hyz <;>
            simp_all [Nat.lt_asymm] <;>
              first
                | omega
                | (exact ih h1 h2)

theorem bytesCompare_lt_iff_lex (a : List Nat) :
    ∀ b, bytesCompare a b = Ordering.lt ↔ List.Lex (· < ·) a b := by
  induction a with
  | nil =>
    intro b
    cases b with
    | nil => simp [bytesCompare]
    | cons y ys => simp [bytesCompare, List.Lex.nil]
  | cons x xs ih =>
    intro b
    cases b with
    | nil =>
      simp only [bytesCompare]
      constructor
      · intro h; exact absurd h (by simp)
      · intro h; cases h
    | cons y ys =>
      rcases Nat.lt_trichotomy x y with h | h | h
      · simp only [bytesCompare, if_pos h]
        constructor
        · intro _; exact List.Lex.rel h
        · intro _; trivial
      · subst h
        simp only [bytesCompare, if_neg (Nat.lt_irrefl x)]
        constructor
        · intro hc; exact List.Lex.cons ((ih ys).mp hc)
        · intro hl
          cases hl with
          | cons hl => exact (ih ys).mpr hl
          | rel hr => exact absurd hr (Nat.lt_irrefl x)
      · simp only [bytesCompare, if_neg (Nat.lt_asymm h), if_pos h]
        constructor
        · intro hc; exact absurd hc (by simp)
        · intro hl
          cases hl with
          | cons hl => exact absurd rfl (Nat.ne_of_lt h).symm
          | rel hr => exact absurd hr (Nat.lt_asymm h)

theorem less_spec (a b : MapEntry) :
    less a b = true ↔ (bytesCompare (MapEntry.Key a) (MapEntry.Key b) = Ordering.lt ∨
      (MapEntry.Key a = MapEntry.Key b ∧ MapEntry.Uid a < MapEntry.Uid b)) := by
  unfold less
  cases hab : bytesCompare (MapEntry.Key a) (MapEntry.Key b) with
  | lt => simp
  | eq =>
    have hk := (bytesCompare_eq_iff _ _).mp hab
    simp [hk]
  | gt =>
    constructor
    · intro h
      exact absurd h (by simp)
    · rintro (h | ⟨hk, -⟩)
      · exact absurd h (by simp)
      · have he := (bytesCompare_eq_iff (MapEntry.Key a) (MapEntry.Key b)).mpr hk
        rw [hab] at he
        exact absurd he (by simp)

theorem bytesCompare_self (a : List Nat) : bytesCompare a a = Ordering.eq :=
  (bytesCompare_eq_iff a a).mpr rfl

theorem less_asymm {a b : MapEntry} (h1 : less a b = true) (h2 : less b a = true) : False := by
  rw [less_spec] at h1 h2
  rcases h1 with h1 | ⟨hk1, hu1⟩ <;> rcases h2 with h2 | ⟨hk2, hu2⟩
  · have h3 := bytesCompare_lt_trans h1 h2
    rw [bytesCompare_self] at h3
    exact absurd h3 (by simp)
  · rw [hk2] at h1
    rw [bytesCompare_self] at h1
    exact absurd h1 (by simp)
  · rw [hk1] at h2
    rw [bytesCompare_self] at h2
    exact absurd h2 (by simp)
  · omega

theorem less_trans_false {a b c : MapEntry} (h1 : less b a = false) (h2 : less c b = false) :
    less c a = false := by
  rw [← Bool.not_eq_true, less_spec] at h1 h2 ⊢
  push_neg at h1 h2
  rintro (hlt | ⟨hk, hu⟩)
  · cases hcb : bytesCompare (MapEntry.Key c) (MapEntry.Key b) with
    | lt => exact h2.1 hcb
    | eq =>
      have hkk := (bytesCompare_eq_iff _ _).mp hcb
      rw [hkk] at hlt
      exact h1.1 hlt
    | gt =>
      have hbc := (bytesCompare_gt_iff _ _).mp hcb
      exact h1.1 (bytesCompare_lt_trans hbc hlt)
  · cases hcb : bytesCompare (MapEntry.Key c) (MapEntry.Key b) with
    | lt => exact h2.1 hcb
    | eq =>
      have hkk := (bytesCompare_eq_iff _ _).mp hcb
      have hba : MapEntry.Key b = MapEntry.Key a := by rw [← hkk, hk]
      have n1 := h1.2 hba
      have n2 := h2.2 hkk
      omega
    | gt =>
      have hbc := (bytesCompare_gt_iff _ _).mp hcb
      rw [hk] at hbc
      exact h1.1 hbc

theorem sortMapEntries_pairwise (l : List MapEntry) :
    (sortMapEntries l).Pairwise (fun a b => less b a = false) := by
  have htrans : ∀ a b c : MapEntry, (!(less b a)) = true → (!(less c b)) = true →
      (!(less c a)) = true := by
    intro a b c hab hbc
    rw [Bool.not_eq_true'] at hab hbc ⊢
    exact less_trans_false hab hbc
  have htotal : ∀ a b : MapEntry, ((!(less b a)) || (!(less a b))) = true := by
    intro a b
    by_cases h : less b a = true
    · by_cases h2 : less a b = true
      · exact (less_asymm h2 h).elim
      · simp [Bool.eq_false_iff.mpr h2]
    · simp [Bool.eq_false_iff.mpr h]
  have h := List.sorted_mergeSort htrans htotal l
  exact h.imp (fun hab => by simpa using hab)

/-- C4: `less(lhs, rhs)` holds exactly when `lhs.Key()` is lexicographically
smaller than `rhs.Key()`, or the keys are equal and `lhs.Uid() < rhs.Uid()`;
and the record sequence emitted by `writeMapEntriesToFile` is sorted
ascending under this comparator (the buffer is sorted before any record is
written). -/
theorem c4_comparator_and_sortedness :
    (∀ lhs rhs : MapEntry, less lhs rhs = true ↔
      (List.Lex (· < ·) (MapEntry.Key lhs) (MapEntry.Key rhs) ∨
        (MapEntry.Key lhs = MapEntry.Key rhs ∧ MapEntry.Uid lhs < MapEntry.Uid rhs))) ∧
    (∀ (pbs : Nat) (entries : List MapEntry),
      ((writeMapEntriesToFile pbs entries).2).Pairwise (fun a b => less b a = false)) := by
  constructor
  · intro lhs rhs
    rw [less_spec, bytesCompare_lt_iff_lex]
  · intro pbs entries
    show (sortMapEntries entries).Pairwise _
    exact sortMapEntries_pairwise entries

theorem partitionKeysAux_mem (pbs : Nat) :
    ∀ (rest : List MapEntry) (acc : List (List Nat)) (bufSize : Nat),
      ∀ k ∈ partitionKeysAux pbs rest acc bufSize,
        k ∈ acc ∨ k ∈ rest.map MapEntry.Key := by
  intro rest
  induction rest with
  | nil =>
    intro acc bufSize k hk
    simp only [partitionKeysAux, List.mem_reverse] at hk
    exact Or.inl hk
  | cons me rest ih =>
    intro acc bufSize k hk
    simp only [partitionKeysAux] at hk
    split at hk
    · rcases ih _ _ k hk with h | h
      · exact Or.inl h
      · exact Or.inr (by simp [h])
    · split at hk
      · rcases ih _ _ k hk with h | h
        · exact Or.inl h
        · exact Or.inr (by simp [h])
      · rcases ih _ _ k hk with h | h
        · rcases List.mem_cons.mp h with rfl | h0
          · exact Or.inr (by simp)
          · exact Or.inl h0
        · exact Or.inr (by simp [h])

theorem partitionKeysAux_pairwise (pbs : Nat) :
    ∀ (rest : List MapEntry) (acc : List (List Nat)) (bufSize : Nat),
      rest.Pairwise (fun a b => less b a = false) →
      acc.Pairwise (fun a b => bytesCompare b a = Ordering.lt) →
      (∀ k ∈ acc, ∀ e ∈ rest, bytesCompare k (MapEntry.Key e) ≠ Ordering.gt) →
      (partitionKeysAux pbs rest acc bufSize).Pairwise
        (fun a b => bytesCompare a b = Ordering.lt) := by
  intro rest
  induction rest with
  | nil =>
    intro acc bufSize _ hacc _
    simpa [partitionKeysAux, List.pairwise_reverse] using hacc
  | cons me rest ih =>
    intro acc bufSize hrest hacc hsep
    rcases List.pairwise_cons.mp hrest with ⟨hme, hrest2⟩
    simp only [partitionKeysAux]
    split
    · exact ih _ _ hrest2 hacc (fun k hk e he => hsep k hk e (List.mem_cons_of_mem _ he))
    · split
      case isTrue hhead =>
        exact ih _ _ hrest2 hacc (fun k hk e he => hsep k hk e (List.mem_cons_of_mem _ he))
      case isFalse hhead =>
        apply ih
        · exact hrest2
        · refine List.pairwise_cons.mpr ⟨?_, hacc⟩
          intro k hk
          have hle := hsep k hk me (List.mem_cons_self _ _)
          cases acc with
          | nil => simp at hk
          | cons k0 acc0 =>
            rcases List.mem_cons.mp hk with rfl | hk0
            · cases hc : bytesCompare k (MapEntry.Key me) with
              | lt => rfl
              | eq =>
                have hkm := (bytesCompare_eq_iff _ _).mp hc
                exact absurd (by simp [hkm]) hhead
              | gt => exact absurd hc hle
            · have hk0lt := (List.pairwise_cons.mp hacc).1 k hk0
              have hle0 := hsep k0 (List.mem_cons_self _ _) me (List.mem_cons_self _ _)
              cases hc0 : bytesCompare k0 (MapEntry.Key me) with
              | lt => exact bytesCompare_lt_trans hk0lt hc0
              | eq =>
                have hkm := (bytesCompare_eq_iff _ _).mp hc0
                exact absurd (by simp [hkm]) hhead
              | gt => exact absurd hc0 hle0
        · intro k hk e he
          rcases List.mem_cons.mp hk with rfl | hk0
          · intro hg
            have hlt := (bytesCompare_gt_iff _ _).mp hg
            have hf := hme e he
            rw [← Bool.not_eq_true, less_spec] at hf
            exact hf (Or.inl hlt)
          · exact hsep k hk0 e (List.mem_cons_of_mem _ he)

/-- C5: within any emitted map file, the header's partition-key list is
strictly ascending in byte-lexicographic order, and every partition key is
the key of some record in the file body.  (The keys are sampled at
`partition_buf_size` boundaries and deduplicated against the immediately
preceding partition key — that is the definition of `partitionKeysAux`.) -/
theorem c5_partition_keys (pbs : Nat) (entries : List MapEntry) :
    ((writeMapEntriesToFile pbs entries).1).Pairwise (fun a b => List.Lex (· < ·) a b) ∧
    ∀ k ∈ (writeMapEntriesToFile pbs entries).1,
      k ∈ ((writeMapEntriesToFile pbs entries).2).map MapEntry.Key := by
  constructor
  · have h := partitionKeysAux_pairwise pbs (sortMapEntries entries) [] 0
      (sortMapEntries_pairwise entries) (by simp) (by simp)
    exact h.imp (fun hab => (bytesCompare_lt_iff_lex _ _).mp hab)
  · intro k hk
    have h := partitionKeysAux_mem pbs (sortMapEntries entries) [] 0 k hk
    rcases h with h | h
    · simp at h
    · exact h

/-! ## Mapper predicate derivation (`mapper.processNQuad`) -/

/-- `mapper.processNQuad`, predicate derivation: `typ` is non-empty only
when the subject starts with `_:` (it is then the text before the first
`.` of the rest, via `strings.SplitN(subject[2:], ".", 2)[0]`), and the
edge the mapper builds carries `Predicate: typ + "." + nq.Predicate` in
both the object-id and the object-value branches — unconditionally.
Namespace prefixing (`x.NamespaceAttr`) happens after this. -/
def derivedPredicate (subject predicate : List Char) : List Char :=
  let typ := if subject.take 2 = ['_', ':'] then
      (subject.drop 2).takeWhile (fun c => c ≠ '.')
    else []
  typ ++ '.' :: predicate

/-- C7 counterexample: for the non-blank subject `"0x1"` the mapper still
prepends the separator, producing `".knows"` — not the original predicate
`"knows"` as the claim states for non-blank subjects. -/
theorem c7_counterexample :
    derivedPredicate ['0', 'x', '1'] ['k', 'n', 'o', 'w', 's'] ≠ ['k', 'n', 'o', 'w', 's'] := by
  decide

/-- C7 amended: the mapper always uses `typ ++ "." ++ predicate` for keys
and schema lookup, where `typ` is the text between `_:` and the first `.`
for blank-node subjects and empty otherwise; so a non-blank subject yields
the predicate prefixed with a bare `"."`, not the original predicate. -/
theorem c7_amended_predicate (subject predicate : List Char) :
    (subject.take 2 = ['_', ':'] →
      derivedPredicate subject predicate =
        ((subject.drop 2).takeWhile (fun c => c ≠ '.')) ++ '.' :: predicate) ∧
    (subject.take 2 ≠ ['_', ':'] →
      derivedPredicate subject predicate = '.' :: predicate) := by
  constructor <;> intro h <;> simp [derivedPredicate, h]

theorem c7_amended_predicate_witness :
    derivedPredicate ['_', ':', 'P', '.', 'x'] ['k'] = ['P', '.', 'k'] ∧
    derivedPredicate ['0', 'x', '1'] ['k'] = ['.', 'k'] := by
  constructor
  · have h := (c7_amended_predicate ['_', ':', 'P', '.', 'x'] ['k']).1 (by decide)
    rw [h]
    decide
  · have h := (c7_amended_predicate ['0', 'x', '1'] ['k']).2 (by decide)
    rw [h]

/-! ## Mapper postings (`mapper.createPostings`) -/

/-- `pb.Edge` restricted to the fields `createPostings` reads: the resolved
object UID for object-id edges, or the object value bytes. -/
structure Edge where
  objectId : Nat
  objectValue : Option (List Nat)
deriving DecidableEq

/-- Modelled from the spec: `posting.NewPosting` is code of this repository
that is not under `src/`; per §4.5 step 6 of the spec it builds a `REF`
posting carrying the object UID for object-id edges (no value attached),
and a `VALUE` posting carrying the value for object-value edges (whose uid
`createPostings` immediately overwrites). -/
def NewPosting (nq : Edge) : Posting :=
  match nq.objectValue with
  | none => ⟨nq.objectId, [], PostingType.REF, []⟩
  | some v => ⟨0, v, PostingType.VALUE, []⟩

/-- `mapper.createPostings`: for object-value edges, overwrite the posting
uid with `farm.Fingerprint64(value)` when the schema marks the predicate as
a list, and with `math.MaxUint64` otherwise.  `fp` abstracts the external
library function `farm.Fingerprint64`; `schList` is the looked-up
`sch.List` flag. -/
def createPostings (fp : List Nat → Nat) (schList : Bool) (nq : Edge) : Posting :=
  let p := NewPosting nq
  match nq.objectValue with
  | some v => if schList then { p with uid := fp v } else { p with uid := 2 ^ 64 - 1 }
  | none => p

/-- C8: the forward posting carries `uid = fingerprint64(value)` for
object-value edges whose schema marks the predicate as a list, and
`uid = 2^64 - 1` (`math.MaxUint64`) otherwise; for object-UID edges the
posting is a `REF` with the object UID and no value attached. -/
theorem c8_posting_uid (fp : List Nat → Nat) (schList : Bool) (nq : Edge) :
    (∀ v, nq.objectValue = some v →
      (createPostings fp schList nq).postingType = PostingType.VALUE ∧
      (createPostings fp schList nq).uid = (if schList then fp v else 2 ^ 64 - 1)) ∧
    (nq.objectValue = none →
      (createPostings fp schList nq).postingType = PostingType.REF ∧
      (createPostings fp schList nq).uid = nq.objectId ∧
      (createPostings fp schList nq).value = []) := by
  cases hov : nq.objectValue with
  | none =>
    constructor
    · intro v hv
      exact absurd hv (by simp)
    · intro _
      simp [createPostings, NewPosting, hov]
  | some v0 =>
    constructor
    · intro v hv
      injection hv with he
      subst he
      by_cases hs : schList <;> simp [createPostings, NewPosting, hov, hs]
    · intro hn
      exact absurd hn (by simp)

theorem c8_posting_uid_witness :
    (createPostings List.length true ⟨0, some [1, 2, 3]⟩).uid = 3 ∧
    (createPostings List.length false ⟨0, some [1, 2, 3]⟩).uid = 2 ^ 64 - 1 ∧
    (createPostings List.length true ⟨0, some [1, 2, 3]⟩).postingType = PostingType.VALUE ∧
    (createPostings List.length true ⟨42, none⟩).uid = 42 ∧
    (createPostings List.length true ⟨42, none⟩).postingType = PostingType.REF := by
  have h1 := (c8_posting_uid List.length true ⟨0, some [1, 2, 3]⟩).1 [1, 2, 3] rfl
  have h2 := (c8_posting_uid List.length false ⟨0, some [1, 2, 3]⟩).1 [1, 2, 3] rfl
  have h3 := (c8_posting_uid List.length true ⟨42, none⟩).2 rfl
  refine ⟨?_, ?_, h1.1, h3.2.1, h3.1⟩
  · simpa using h1.2
  · simpa using h2.2

/-! ## Count-index rebuild decision (`src/posting/index.go`) -/

/-- `pb.SchemaUpdate` restricted to the `Count` directive — the only field
`needsCountIndexRebuild` reads; the zero value substituted for a missing
old schema has `count = false`. -/
structure SchemaUpdate where
  count : Bool
deriving DecidableEq

/-- `type indexOp int` with its three constants; the Go comment on
`indexRebuild` reads "Index should be deleted and rebuilt". -/
inductive IndexOp where
  | indexNoop
  | indexDelete
  | indexRebuild
deriving DecidableEq

/-- `type IndexRebuild struct` (the `Attr`/`StartTs` fields are omitted:
the count-index decision reads only the two schemas). -/
structure IndexRebuild where
  oldSchema : Option SchemaUpdate
  currentSchema : SchemaUpdate
deriving DecidableEq

/-- `IndexRebuild.needsCountIndexRebuild`. -/
def IndexRebuild.needsCountIndexRebuild (rb : IndexRebuild) : IndexOp :=
  let old := match rb.oldSchema with
    | none => SchemaUpdate.mk false
    | some o => o
  if rb.currentSchema.count = old.count then IndexOp.indexNoop
  else if rb.currentSchema.count = false then IndexOp.indexDelete
  else IndexOp.indexRebuild

/-- `prefixesToDropCountIndex` returns a non-empty prefix list exactly when
the decision is not a noop (the drop phase runs for both the delete and the
rebuild decision). -/
def countIndexDropNeeded (rb : IndexRebuild) : Bool :=
  decide (rb.needsCountIndexRebuild ≠ IndexOp.indexNoop)

/-- `rebuildCountIndex` does work exactly when the decision is
`indexRebuild` (its early return on `op != indexRebuild`). -/
def rebuildCountIndexRuns (rb : IndexRebuild) : Bool :=
  decide (rb.needsCountIndexRebuild = IndexOp.indexRebuild)

/-- C9: for every schema-change descriptor the count-index decision is:
noop when the count directive is unchanged (a missing old schema counting
as `false`); delete when count turned off; delete-and-rebuild
(`indexRebuild`, with the drop phase also firing) when count turned on. -/
theorem c9_count_index_decision (rb : IndexRebuild) :
    (rb.needsCountIndexRebuild = IndexOp.indexNoop ↔
      rb.currentSchema.count = (match rb.oldSchema with
        | none => false
        | some o => o.count)) ∧
    (rb.needsCountIndexRebuild = IndexOp.indexDelete ↔
      rb.currentSchema.count = false ∧ (match rb.oldSchema with
        | none => false
        | some o => o.count) = true) ∧
    (rb.needsCountIndexRebuild = IndexOp.indexRebuild ↔
      rb.currentSchema.count = true ∧ (match rb.oldSchema with
        | none => false
        | some o => o.count) = false) ∧
    (countIndexDropNeeded rb = true ↔ rb.needsCountIndexRebuild ≠ IndexOp.indexNoop) ∧
    (rebuildCountIndexRuns rb = true ↔ rb.needsCountIndexRebuild = IndexOp.indexRebuild) := by
  obtain ⟨old, cur⟩ := rb
  obtain ⟨cc⟩ := cur
  cases old with
  | none => cases cc <;> decide
  | some o =>
    obtain ⟨oc⟩ := o
    cases oc <;> cases cc <;> decide
